import Mathlib

/-!
Verification of the episodic-memory engine of the memory-orb backend.

The development shallowly embeds the Python sources `src/config.py` and
`src/memory_v2.py`.  Scores are modelled as exact rationals, Python strings
as `String` (or `List Char` where index arithmetic matters), Python dicts as
insertion-ordered association lists, and Python's stable `sorted` as
`List.mergeSort`.  External capabilities (the vector store, the embedding
HTTP endpoint) are opaque parameters, constrained only by facts recorded
where they are used.
-/

/-- A scored point as returned by the vector store: `item.id`, the native
`item.score`, and its payload (opaque here).  Keyword-scan records reuse the
same shape; their `score` field is never read by the fusion code. -/
structure ScoredItem where
  id : String
  score : ℚ
  payload : String
deriving DecidableEq, Repr

/-- Python-dict insertion (`d[k] = v`): overwrite in place if the key is
present (keeping its position), else append at the end. -/
def dictInsert {β : Type} : List (String × β) → String → β → List (String × β)
  | [], k, v => [(k, v)]
  | p :: rest, k, v => if p.1 = k then (k, v) :: rest else p :: dictInsert rest k v

/-- Python-dict lookup (`d.get(k)` as an `Option`). -/
def dictGet {β : Type} : List (String × β) → String → Option β
  | [], _ => none
  | p :: rest, k => if p.1 = k then some p.2 else dictGet rest k

/-- Keys of a Python dict, in insertion order. -/
def dictKeys {β : Type} (d : List (String × β)) : List String :=
  d.map Prod.fst

/-- Python's `scores.get(x.id, 0)`. -/
def scoresGetD (scores : List (String × ℚ)) (k : String) : ℚ :=
  (dictGet scores k).getD 0

/-- One pass of `for item in L: d[item.id] = g(item)`; used for the
similarity-score loop and for the `all_items` dict comprehension of
`hybrid_merge`. -/
def insLoop {β : Type} (g : ScoredItem → β) : List ScoredItem → List (String × β) → List (String × β)
  | [], d => d
  | item :: rest, d => insLoop g rest (dictInsert d item.id (g item))

/-- The keyword loop of `hybrid_merge` (`for idx, item in enumerate(keyword_res)`):
`bm25_score = (idx + 1) / len(keyword_res)`, added to the running score if the
id is already present, else installed fresh.  `n` is `len(keyword_res)`. -/
def kwLoop (alpha : ℚ) (n : ℕ) : ℕ → List ScoredItem → List (String × ℚ) → List (String × ℚ)
  | _, [], scores => scores
  | idx, item :: rest, scores =>
      let bm25_score : ℚ := ((idx : ℚ) + 1) / (n : ℚ)
      match dictGet scores item.id with
      | some s => kwLoop alpha n (idx + 1) rest (dictInsert scores item.id (s + (1 - alpha) * bm25_score))
      | none => kwLoop alpha n (idx + 1) rest (dictInsert scores item.id ((1 - alpha) * bm25_score))

/-- The `scores` dict of `hybrid_merge` after both loops. -/
def hybridScores (vector_res keyword_res : List ScoredItem) (alpha : ℚ) : List (String × ℚ) :=
  kwLoop alpha keyword_res.length 0 keyword_res
    (insLoop (fun item => alpha * (1 - item.score)) vector_res [])

/-- The `all_items` dict of `hybrid_merge`:
`{item.id : item for item in vector_res + keyword_res}`. -/
def allItems (vector_res keyword_res : List ScoredItem) : List (String × ScoredItem) :=
  insLoop (fun item => item) (vector_res ++ keyword_res) []

/-- `hybrid_merge` from `memory_v2.py`: build the fused score dict, then
stably sort the deduplicated union of the two result lists by descending
score (`sorted(..., key=lambda x: scores.get(x.id, 0), reverse=True)`;
CPython's `sorted` is stable, modelled by `List.mergeSort`). -/
def hybrid_merge (vector_res keyword_res : List ScoredItem) (alpha : ℚ) : List ScoredItem :=
  ((allItems vector_res keyword_res).map Prod.snd).mergeSort
    (fun a b =>
      decide (scoresGetD (hybridScores vector_res keyword_res alpha) b.id ≤
        scoresGetD (hybridScores vector_res keyword_res alpha) a.id))

/-- The fusion-and-truncation tail of `episodic_recall`: combine the two
store read results with `hybrid_merge` and return the top 3
(`return combined[:3]`).  The two store reads themselves are opaque
external calls whose results are the two arguments. -/
def episodic_recall (vector_results keyword_results : List ScoredItem) (alpha : ℚ) : List ScoredItem :=
  (hybrid_merge vector_results keyword_results alpha).take 3

/-- Position search used to state the claims: 1-based position (first hit)
of the item with identifier `i`, starting the count at `n`. -/
def posFrom (i : String) : ℕ → List ScoredItem → Option ℕ
  | _, [] => none
  | n, item :: rest => if item.id = i then some n else posFrom i (n + 1) rest

/-- 1-based position of the item with identifier `i` in `K`. -/
def pos1 (K : List ScoredItem) (i : String) : Option ℕ :=
  posFrom i 1 K

/-- Modelled from the spec wording of the fusion contract: the similarity
contribution of identifier `i`, namely `alpha * (1 - nativeScore)` for its
appearance in `S`, and `0` if it does not appear. -/
def simContribution (S : List ScoredItem) (alpha : ℚ) (i : String) : ℚ :=
  match S.find? (fun item => decide (item.id = i)) with
  | some item => alpha * (1 - item.score)
  | none => 0

/-- Modelled from the spec wording of the fusion contract: the keyword
contribution of identifier `i`, namely `(1 - alpha) * (p / |K|)` for its
appearance at 1-based position `p` in `K`, and `0` if it does not appear. -/
def kwContribution (K : List ScoredItem) (alpha : ℚ) (i : String) : ℚ :=
  match pos1 K i with
  | some p => (1 - alpha) * ((p : ℚ) / (K.length : ℚ))
  | none => 0

/-- The accumulated fused score the claims describe: similarity contribution
plus keyword contribution. -/
def specScore (S K : List ScoredItem) (alpha : ℚ) (i : String) : ℚ :=
  simContribution S alpha i + kwContribution K alpha i

/-- The fixed collection-name prefix from `config.py`. -/
def BASE_COLLECTION_NAME : String := "memory_orb"

/-- Collection naming from `config.py`: the f-string
interpolation of the base name, an underscore, and the user id. -/
def get_collection_name (user_id : String) : String :=
  BASE_COLLECTION_NAME ++ "_" ++ user_id

/-- The dynamically typed value the code hands to `embed_text` as the text to
embed: its declared parameter type is `str`, but `add_episodic_memory`
actually passes the one-element list `[summary]`. -/
inductive EmbedInput where
  | str (s : String)
  | strList (l : List String)
deriving DecidableEq

/-- Response of the external embedding HTTP endpoint: the status code, the
raw body (`response.text`), and `response.json().get("embedding", [])`, which
per the endpoint contract is one fixed-length vector of floats. -/
structure EmbedResponse where
  status : ℕ
  text : String
  embedding : List ℚ

/-- A dynamically typed Python value sitting in the `vector` field of an
upserted point: either a single float or a list of floats. -/
inductive PyVec where
  | scalar (x : ℚ)
  | vec (v : List ℚ)
deriving DecidableEq, Repr

/-- The reflection dictionary as consumed by `add_episodic_memory`: each
field holds the value of the corresponding `reflection.get(...)` call, with
that call's default when the key is absent. -/
structure Reflection where
  context_tags : List String
  conversation_summary : String
  what_worked : String
  what_to_avoid : String

/-- A point upserted into the vector store (`PointStruct`): id, vector and
the payload fields of `add_episodic_memory`. -/
structure Point where
  id : String
  vector : PyVec
  conversation : String
  context_tags : List String
  conversation_summary : String
  what_worked : String
  what_to_avoid : String

/-- The observable state of the external vector store: which collections
exist and, per collection name, the stored points. -/
structure Store where
  collections : List String
  points : String → List Point

/-- `embed_text` from `memory_v2.py`: POST the text to the embedding
endpoint (modelled by the oracle `api`); raise including the raw response
body on a non-200 status, else return the `embedding` field of the JSON
response. -/
def embed_text (api : EmbedInput → EmbedResponse) (text : EmbedInput) : Except String (List ℚ) :=
  let response := api text
  if response.status ≠ 200 then
    Except.error ("Ollama API 请求失败: " ++ response.text)
  else
    Except.ok response.embedding

/-- `add_episodic_memory` from `memory_v2.py`, with the reflection step's
outcome passed in (`reflection`, the parsed summary of `conversation`) and
fresh-id generation passed in (`newId` models `str(uuid4())`).  The store is
threaded explicitly; a raised exception carries the store as changed so far
(the lazily created collection persists, nothing else does).  The embedding
is computed as in the source: `embed_text([summary])[0]`, i.e. `embed_text`
is applied to the one-element list and the result is indexed at 0. -/
def add_episodic_memory (api : EmbedInput → EmbedResponse) (newId : String)
    (reflection : Reflection) (conversation : String) (user_id : String)
    (store : Store) : Except (String × Store) Store :=
  let collection_name := get_collection_name user_id
  let store1 : Store :=
    if collection_name ∈ store.collections then store
    else { store with collections := collection_name :: store.collections }
  let summary := reflection.conversation_summary
  match embed_text api (EmbedInput.strList [summary]) with
  | Except.error e => Except.error (e, store1)
  | Except.ok embList =>
    match embList.head? with
    | none => Except.error ("IndexError: list index out of range", store1)
    | some embedding =>
      let point : Point :=
        { id := newId
          vector := PyVec.scalar embedding
          conversation := conversation
          context_tags := reflection.context_tags
          conversation_summary := reflection.conversation_summary
          what_worked := reflection.what_worked
          what_to_avoid := reflection.what_to_avoid }
      Except.ok
        { store1 with
          points := fun c =>
            if c = collection_name then store1.points c ++ [point] else store1.points c }

/-- Python `text.find(c)` over a character list: index of the first
occurrence counting from `n`, else `-1` via `pyFind`. -/
def findIdxFrom (c : Char) : ℕ → List Char → Option ℕ
  | _, [] => none
  | n, x :: rest => if x = c then some n else findIdxFrom c (n + 1) rest

/-- Python `text.find(c)`: first index of `c`, or `-1`. -/
def pyFind (s : List Char) (c : Char) : Int :=
  match findIdxFrom c 0 s with
  | some i => (i : Int)
  | none => -1

/-- Python `text.rfind(c)`: highest index of `c`, or `-1`. -/
def pyRfind (s : List Char) (c : Char) : Int :=
  match findIdxFrom c 0 s.reverse with
  | some i => (s.length : Int) - 1 - (i : Int)
  | none => -1

/-- A decoded JSON value: the payload the success path of the parser would
carry if its decode step could ever run. -/
inductive Json where
  | null
  | bool (b : Bool)
  | num (q : ℚ)
  | str (s : List Char)
  | arr (elems : List Json)
  | obj (fields : List (List Char × Json))

/-- Result of `RobustJsonParser.parse`: either a decoded JSON value, or the
recovery dict with its diagnostic `error` string and the raw text. -/
inductive ParseResult (J : Type) where
  | ok (j : J)
  | errDraft (error : List Char) (raw : List Char)

/-- The `error` field the recovery dict actually carries on every call:
`memory_v2.py` never imports `json`, so evaluating `json.loads(...)` raises
`NameError` whose `str(e)` is `name 'json' is not defined`, wrapped by the
f-string of the except branch. -/
def nameErrorMsg : List Char := "解析失败: name 'json' is not defined".data

/-- `RobustJsonParser.parse` from `memory_v2.py`.  The `try` block computes
`start = text.find(...)` and `end = text.rfind(...) + 1` for the two braces,
then evaluates `json.loads(text[start:end])`; but the module never imports
`json`, so the lookup of that bare name raises `NameError` before any
slicing or decoding happens.  `except Exception` catches it and returns the
recovery dict carrying the diagnostic message and the raw text, so the
success path that would return a decoded `Json` value is unreachable. -/
def RobustJsonParser.parse (text : List Char) : ParseResult Json :=
  let start := pyFind text '{'
  let stop := pyRfind text '}' + 1
  ParseResult.errDraft nameErrorMsg text

theorem dictGet_insert {β : Type} (d : List (String × β)) (k : String) (v : β) (i : String) :
    dictGet (dictInsert d k v) i = if i = k then some v else dictGet d i := by
  induction d with
  | nil =>
    simp only [dictInsert, dictGet]
    by_cases h : i = k
    · simp [h]
    · simp [h, Ne.symm h]
  | cons p rest ih =>
    simp only [dictInsert]
    by_cases hp : p.1 = k
    · simp only [if_pos hp, dictGet]
      by_cases h : i = k
      · simp [h]
      · rw [hp]
        simp [h, Ne.symm h]
    · simp only [if_neg hp, dictGet, ih]
      by_cases h : p.1 = i
      · have hik : ¬ i = k := fun hk => hp (h.trans hk)
        simp [h, hik]
      · simp [h]

theorem mem_dictKeys_insert {β : Type} (d : List (String × β)) (k : String) (v : β) (i : String) :
    i ∈ dictKeys (dictInsert d k v) ↔ i = k ∨ i ∈ dictKeys d := by
  induction d with
  | nil => simp [dictInsert, dictKeys]
  | cons p rest ih =>
    simp only [dictInsert]
    by_cases hp : p.1 = k
    · simp only [if_pos hp, dictKeys, List.map_cons, List.mem_cons]
      rw [hp]
      tauto
    · simp only [if_neg hp, dictKeys, List.map_cons, List.mem_cons]
      simp only [dictKeys] at ih
      rw [ih]
      tauto

theorem nodup_dictKeys_insert {β : Type} (d : List (String × β)) (k : String) (v : β)
    (h : (dictKeys d).Nodup) : (dictKeys (dictInsert d k v)).Nodup := by
  induction d with
  | nil => simp [dictInsert, dictKeys]
  | cons p rest ih =>
    simp only [dictKeys, List.map_cons, List.nodup_cons] at h
    by_cases hp : p.1 = k
    · simp only [dictInsert, if_pos hp, dictKeys, List.map_cons, List.nodup_cons]
      exact ⟨hp ▸ h.1, h.2⟩
    · simp only [dictInsert, if_neg hp, dictKeys, List.map_cons, List.nodup_cons]
      refine ⟨?_, ih h.2⟩
      intro hmem
      rcases (mem_dictKeys_insert rest k v p.1).mp hmem with h1 | h2
      · exact hp h1
      · exact h.1 h2

theorem dictInsert_inv {β : Type} (P : String → β → Prop) (d : List (String × β))
    (k : String) (v : β) (h : ∀ p ∈ d, P p.1 p.2) (hv : P k v) :
    ∀ p ∈ dictInsert d k v, P p.1 p.2 := by
  induction d with
  | nil => simpa [dictInsert] using hv
  | cons q rest ih =>
    simp only [dictInsert]
    by_cases hq : q.1 = k
    · simp only [if_pos hq, List.mem_cons]
      rintro p (rfl | hp)
      · exact hv
      · exact h p (List.mem_cons_of_mem _ hp)
    · simp only [if_neg hq, List.mem_cons]
      rintro p (rfl | hp)
      · exact h p (List.mem_cons_self _ _)
      · exact ih (fun q hq' => h q (List.mem_cons_of_mem _ hq')) p hp

theorem count_filter_assoc {β : Type} (d : List (String × β)) (i : String)
    (hnd : (dictKeys d).Nodup) :
    (d.filter (fun p => decide (p.1 = i))).length = if i ∈ dictKeys d then 1 else 0 := by
  induction d with
  | nil => simp [dictKeys]
  | cons p rest ih =>
    simp only [dictKeys, List.map_cons, List.nodup_cons] at hnd
    by_cases hp : p.1 = i
    · have hni : i ∉ dictKeys rest := by
        simp only [dictKeys]
        rw [← hp]
        exact hnd.1
      have h0 : (rest.filter (fun q => decide (q.1 = i))).length = 0 := by
        rw [ih hnd.2, if_neg hni]
      have hmem : i ∈ dictKeys (p :: rest) := by
        simp only [dictKeys, List.map_cons, List.mem_cons]
        exact Or.inl hp.symm
      rw [if_pos hmem]
      simp [List.filter_cons, hp, h0]
    · have hip : ¬ i = p.1 := fun hh => hp hh.symm
      simp only [List.filter_cons, decide_eq_true_eq, hp, if_false, ih hnd.2]
      by_cases him : i ∈ List.map Prod.fst rest
      · simp [dictKeys, him, List.mem_cons]
      · simp [dictKeys, him, List.mem_cons, hip]

theorem find?_eq_of_unique {α : Type} {p : α → Bool} {l : List α} {a : α}
    (ha : a ∈ l) (hpa : p a = true) (huniq : ∀ x ∈ l, p x = true → x = a) :
    l.find? p = some a := by
  induction l with
  | nil => cases ha
  | cons x rest ih =>
    by_cases hx : p x = true
    · rw [List.find?_cons_of_pos _ hx, huniq x (List.mem_cons_self _ _) hx]
    · rw [List.find?_cons_of_neg _ hx]
      rcases List.mem_cons.mp ha with rfl | ha'
      · exact absurd hpa hx
      · exact ih ha' (fun y hy => huniq y (List.mem_cons_of_mem _ hy))

theorem find?_reverse_of_unique {α : Type} {p : α → Bool} {l : List α}
    (huniq : ∀ x ∈ l, ∀ y ∈ l, p x = true → p y = true → x = y) :
    l.reverse.find? p = l.find? p := by
  cases h : l.find? p with
  | none =>
    rw [List.find?_eq_none] at h ⊢
    intro x hx
    exact h x (List.mem_reverse.mp hx)
  | some a =>
    have ha := List.mem_of_find?_eq_some h
    have hpa := List.find?_some h
    exact find?_eq_of_unique (List.mem_reverse.mpr ha) hpa
      (fun x hx hpx => huniq x (List.mem_reverse.mp hx) a ha hpx hpa)

theorem insLoop_get_rev {β : Type} (g : ScoredItem → β) (L : List ScoredItem)
    (d : List (String × β)) (i : String) :
    dictGet (insLoop g L d) i =
      match L.reverse.find? (fun item => decide (item.id = i)) with
      | some item => some (g item)
      | none => dictGet d i := by
  induction L generalizing d with
  | nil => simp [insLoop]
  | cons item rest ih =>
    simp only [insLoop, List.reverse_cons]
    rw [ih, List.find?_append]
    cases h : rest.reverse.find? (fun it => decide (it.id = i)) with
    | some y => rfl
    | none =>
      by_cases hid : item.id = i
      · simp [hid, dictGet_insert]
      · have hii : ¬ i = item.id := fun hh => hid hh.symm
        simp [hid, dictGet_insert, hii]

theorem insLoop_get {β : Type} (g : ScoredItem → β) (L : List ScoredItem)
    (d : List (String × β)) (i : String) (h : (L.map ScoredItem.id).Nodup) :
    dictGet (insLoop g L d) i =
      match L.find? (fun item => decide (item.id = i)) with
      | some item => some (g item)
      | none => dictGet d i := by
  rw [insLoop_get_rev, find?_reverse_of_unique]
  intro x hx y hy hpx hpy
  simp only [decide_eq_true_eq] at hpx hpy
  exact List.inj_on_of_nodup_map h hx hy (hpx.trans hpy.symm)

theorem mem_dictKeys_insLoop {β : Type} (g : ScoredItem → β) (L : List ScoredItem)
    (d : List (String × β)) (i : String) :
    i ∈ dictKeys (insLoop g L d) ↔ i ∈ L.map ScoredItem.id ∨ i ∈ dictKeys d := by
  induction L generalizing d with
  | nil => simp [insLoop]
  | cons item rest ih =>
    simp only [insLoop, List.map_cons, List.mem_cons]
    rw [ih, mem_dictKeys_insert]
    tauto

theorem nodup_dictKeys_insLoop {β : Type} (g : ScoredItem → β) (L : List ScoredItem)
    (d : List (String × β)) (h : (dictKeys d).Nodup) :
    (dictKeys (insLoop g L d)).Nodup := by
  induction L generalizing d with
  | nil => simpa [insLoop] using h
  | cons item rest ih => exact ih _ (nodup_dictKeys_insert d item.id (g item) h)

theorem insLoop_id_inv (L : List ScoredItem) (d : List (String × ScoredItem))
    (h : ∀ p ∈ d, (p.2).id = p.1) :
    ∀ p ∈ insLoop (fun item => item) L d, (p.2).id = p.1 := by
  induction L generalizing d with
  | nil => simpa [insLoop] using h
  | cons item rest ih =>
    exact ih _ (dictInsert_inv (fun k x => x.id = k) d item.id item h rfl)

theorem posFrom_eq_none {i : String} {K : List ScoredItem}
    (h : ∀ item ∈ K, item.id ≠ i) : ∀ n, posFrom i n K = none := by
  induction K with
  | nil => intro n; rfl
  | cons item rest ih =>
    intro n
    simp only [posFrom, if_neg (h item (List.mem_cons_self _ _))]
    exact ih (fun it hit => h it (List.mem_cons_of_mem _ hit)) (n + 1)

theorem kwLoop_get (alpha : ℚ) (n : ℕ) :
    ∀ (K : List ScoredItem), (K.map ScoredItem.id).Nodup →
    ∀ (idx : ℕ) (d : List (String × ℚ)) (i : String),
    dictGet (kwLoop alpha n idx K d) i =
      match posFrom i (idx + 1) K with
      | some p => some ((dictGet d i).getD 0 + (1 - alpha) * ((p : ℚ) / (n : ℚ)))
      | none => dictGet d i := by
  intro K
  induction K with
  | nil => intro _ idx d i; simp [kwLoop, posFrom]
  | cons item rest ih =>
    intro h idx d i
    rw [List.map_cons, List.nodup_cons] at h
    obtain ⟨hni, hrest⟩ := h
    by_cases hid : item.id = i
    · have hnone : posFrom i (idx + 1 + 1) rest = none := by
        refine posFrom_eq_none (fun it hit he => hni ?_) _
        rw [hid, ← he]
        exact List.mem_map_of_mem ScoredItem.id hit
      have hins : ∀ X : ℚ, dictGet (dictInsert d item.id X) i = some X := by
        intro X
        rw [dictGet_insert, ← hid]
        simp
      cases hd : dictGet d item.id with
      | some s =>
        simp only [kwLoop, hd]
        rw [ih hrest (idx + 1) _ i]
        simp only [hnone, posFrom, if_pos hid, hins]
        rw [← hid, hd]
        simp only [Option.getD_some, Option.some.injEq]
        push_cast
        ring
      | none =>
        simp only [kwLoop, hd]
        rw [ih hrest (idx + 1) _ i]
        simp only [hnone, posFrom, if_pos hid, hins]
        rw [← hid, hd]
        simp only [Option.getD_none, Option.some.injEq]
        push_cast
        ring
    · have hii : ¬ i = item.id := fun hh => hid hh.symm
      have hstep : ∀ v : ℚ, dictGet (dictInsert d item.id v) i = dictGet d i := by
        intro v
        rw [dictGet_insert, if_neg hii]
      cases hd : dictGet d item.id with
      | some s =>
        simp only [kwLoop, hd]
        rw [ih hrest (idx + 1) _ i]
        simp only [posFrom, if_neg hid]
        cases hp : posFrom i (idx + 1 + 1) rest with
        | some p => simp [hstep]
        | none => simp [hstep]
      | none =>
        simp only [kwLoop, hd]
        rw [ih hrest (idx + 1) _ i]
        simp only [posFrom, if_neg hid]
        cases hp : posFrom i (idx + 1 + 1) rest with
        | some p => simp [hstep]
        | none => simp [hstep]

theorem scores_spec (S K : List ScoredItem) (alpha : ℚ)
    (hS : (S.map ScoredItem.id).Nodup) (hK : (K.map ScoredItem.id).Nodup) (i : String) :
    scoresGetD (hybridScores S K alpha) i = specScore S K alpha i := by
  unfold scoresGetD hybridScores specScore
  rw [kwLoop_get alpha K.length K hK 0 _ i]
  have hsim : (dictGet (insLoop (fun item => alpha * (1 - item.score)) S []) i).getD 0 =
      simContribution S alpha i := by
    rw [insLoop_get _ S [] i hS]
    unfold simContribution
    cases S.find? (fun item => decide (item.id = i)) with
    | some it => rfl
    | none => rfl
  unfold kwContribution pos1
  cases hp : posFrom i 1 K with
  | some p => simp [hp, hsim]
  | none => simp [hp, hsim]

theorem mergeSort_desc_sorted (f : ScoredItem → ℚ) (l : List ScoredItem) :
    (l.mergeSort (fun a b => decide (f b ≤ f a))).Pairwise (fun a b => f b ≤ f a) := by
  have h := @List.sorted_mergeSort ScoredItem (fun a b => decide (f b ≤ f a))
    (fun a b c h1 h2 => by
      simp only [decide_eq_true_eq] at h1 h2 ⊢
      exact le_trans h2 h1)
    (fun a b => by simpa using le_total (f b) (f a)) l
  exact h.imp (fun hab => of_decide_eq_true hab)

/-- Concrete items used to instantiate the hypothesised theorems. -/
def itemA : ScoredItem := ⟨"a", 1/2, "payloadA"⟩

def itemB : ScoredItem := ⟨"b", 1/4, "payloadB"⟩

def itemA2 : ScoredItem := ⟨"a", 0, "payloadA2"⟩

def itemC : ScoredItem := ⟨"c", 0, "payloadC"⟩

/-- C1: for similarity results `S`, keyword results `K` and weight `alpha`
(each identifier occurring at most once per result list, as the store
guarantees), the fusion accumulates for every identifier the score
`alpha * (1 - nativeScore)` for its appearance in `S` plus
`(1 - alpha) * (p / |K|)` for its appearance at 1-based position `p` in `K`
(`specScore`), and returns the encounter-ordered union sorted descending by
exactly this accumulated score, with ties broken by original encounter order
(`mergeSort` is the stable descending sort of the union list, whose order is
first-encounter order). -/
theorem hybrid_merge_fusion_spec (S K : List ScoredItem) (alpha : ℚ)
    (hS : (S.map ScoredItem.id).Nodup) (hK : (K.map ScoredItem.id).Nodup) :
    hybrid_merge S K alpha =
      ((allItems S K).map Prod.snd).mergeSort
        (fun a b => decide (specScore S K alpha b.id ≤ specScore S K alpha a.id))
    ∧ (hybrid_merge S K alpha).Pairwise
        (fun a b => specScore S K alpha b.id ≤ specScore S K alpha a.id) := by
  have hfun : (fun a b : ScoredItem =>
        decide (scoresGetD (hybridScores S K alpha) b.id ≤
          scoresGetD (hybridScores S K alpha) a.id)) =
      (fun a b : ScoredItem =>
        decide (specScore S K alpha b.id ≤ specScore S K alpha a.id)) := by
    funext a b
    rw [scores_spec S K alpha hS hK, scores_spec S K alpha hS hK]
  constructor
  · unfold hybrid_merge
    rw [hfun]
  · unfold hybrid_merge
    rw [hfun]
    exact mergeSort_desc_sorted (fun x => specScore S K alpha x.id) _

theorem hybrid_merge_fusion_spec_witness :
    hybrid_merge [itemA, itemB] [itemA2, itemC] (1/2) =
      ((allItems [itemA, itemB] [itemA2, itemC]).map Prod.snd).mergeSort
        (fun a b => decide (specScore [itemA, itemB] [itemA2, itemC] (1/2) b.id ≤
          specScore [itemA, itemB] [itemA2, itemC] (1/2) a.id)) :=
  (hybrid_merge_fusion_spec [itemA, itemB] [itemA2, itemC] (1/2)
    (by decide) (by decide)).1

/-- C2: an identifier appearing in both result lists (each list mentioning it
at most once) occurs exactly once in the fused output, and its accumulated
score is the sum of its similarity contribution and its keyword
contribution. -/
theorem fused_item_once_with_summed_score (S K : List ScoredItem) (alpha : ℚ)
    (hS : (S.map ScoredItem.id).Nodup) (hK : (K.map ScoredItem.id).Nodup)
    (i : String) (hiS : i ∈ S.map ScoredItem.id) (hiK : i ∈ K.map ScoredItem.id) :
    ((hybrid_merge S K alpha).filter (fun item => decide (item.id = i))).length = 1
    ∧ scoresGetD (hybridScores S K alpha) i =
        simContribution S alpha i + kwContribution K alpha i := by
  constructor
  · have hperm : (hybrid_merge S K alpha).Perm ((allItems S K).map Prod.snd) :=
      List.mergeSort_perm _ _
    rw [(hperm.filter _).length_eq]
    rw [List.filter_map, List.length_map]
    have hinv : ∀ p ∈ allItems S K, (p.2).id = p.1 :=
      insLoop_id_inv _ [] (by simp)
    have hcong : (allItems S K).filter
          ((fun item => decide (item.id = i)) ∘ Prod.snd) =
        (allItems S K).filter (fun p => decide (p.1 = i)) := by
      refine List.filter_congr (fun p hp => ?_)
      simp [Function.comp, hinv p hp]
    rw [hcong]
    have hnd : (dictKeys (allItems S K)).Nodup :=
      nodup_dictKeys_insLoop _ _ [] (by simp [dictKeys])
    rw [count_filter_assoc _ _ hnd]
    have hmem : i ∈ dictKeys (allItems S K) := by
      unfold allItems
      rw [mem_dictKeys_insLoop]
      left
      rw [List.map_append]
      exact List.mem_append_left _ hiS
    rw [if_pos hmem]
  · simpa [specScore] using scores_spec S K alpha hS hK i

theorem fused_item_once_with_summed_score_witness :
    ((hybrid_merge [itemA, itemB] [itemA2, itemC] (1/2)).filter
      (fun item => decide (item.id = "a"))).length = 1
    ∧ scoresGetD (hybridScores [itemA, itemB] [itemA2, itemC] (1/2)) "a" =
        simContribution [itemA, itemB] (1/2) "a" +
          kwContribution [itemA2, itemC] (1/2) "a" :=
  fused_item_once_with_summed_score [itemA, itemB] [itemA2, itemC] (1/2)
    (by decide) (by decide) "a" (by decide) (by decide)

/-- C3: for any fusion weight `alpha` in the unit interval and any finite
result lists, the retrieval's fused output (`episodic_recall`, which
truncates the fused list to the top 3) has length at most 3 and at most the
number of distinct identifiers in the union of the two inputs. -/
theorem episodic_recall_bounds (v k : List ScoredItem) (alpha : ℚ)
    (h0 : 0 ≤ alpha) (h1 : alpha ≤ 1) :
    (episodic_recall v k alpha).length ≤ 3
    ∧ (episodic_recall v k alpha).length ≤
        ((v ++ k).map ScoredItem.id).toFinset.card := by
  have hlen : (allItems v k).length = ((v ++ k).map ScoredItem.id).toFinset.card := by
    have hnd : (dictKeys (allItems v k)).Nodup :=
      nodup_dictKeys_insLoop _ _ [] (by simp [dictKeys])
    have hmem : ∀ i, i ∈ dictKeys (allItems v k) ↔ i ∈ (v ++ k).map ScoredItem.id := by
      intro i
      unfold allItems
      rw [mem_dictKeys_insLoop]
      simp [dictKeys]
    have hfin : (dictKeys (allItems v k)).toFinset =
        ((v ++ k).map ScoredItem.id).toFinset := by
      ext i
      simp only [List.mem_toFinset]
      exact hmem i
    calc (allItems v k).length = (dictKeys (allItems v k)).length :=
          (List.length_map _ _).symm
      _ = (dictKeys (allItems v k)).toFinset.card :=
          (List.toFinset_card_of_nodup hnd).symm
      _ = ((v ++ k).map ScoredItem.id).toFinset.card := by rw [hfin]
  constructor
  · unfold episodic_recall
    rw [List.length_take]
    exact min_le_left _ _
  · unfold episodic_recall
    rw [List.length_take]
    refine le_trans (min_le_right _ _) ?_
    unfold hybrid_merge
    rw [List.length_mergeSort, List.length_map]
    exact le_of_eq hlen

theorem episodic_recall_bounds_witness :
    (episodic_recall [itemA, itemB] [itemA2, itemC] (1/2)).length ≤ 3
    ∧ (episodic_recall [itemA, itemB] [itemA2, itemC] (1/2)).length ≤
        (([itemA, itemB] ++ [itemA2, itemC]).map ScoredItem.id).toFinset.card :=
  episodic_recall_bounds [itemA, itemB] [itemA2, itemC] (1/2)
    (by norm_num) (by norm_num)

/-- C8: fusing any similarity list with an empty keyword list is total (in
the source the per-rank division is never executed, so no division by zero
occurs; here the keyword loop over `[]` is the identity): the score dict is
exactly the similarity-loop dict, the keyword contribution of every
identifier is zero, and the result is a validly ordered (descending by
accumulated score) permutation of the deduplicated similarity items. -/
theorem fuse_empty_keyword_list (S : List ScoredItem) (alpha : ℚ) :
    hybridScores S [] alpha = insLoop (fun item => alpha * (1 - item.score)) S []
    ∧ (∀ i, kwContribution [] alpha i = 0)
    ∧ (hybrid_merge S [] alpha).Pairwise
        (fun a b => scoresGetD (hybridScores S [] alpha) b.id ≤
          scoresGetD (hybridScores S [] alpha) a.id)
    ∧ (hybrid_merge S [] alpha).Perm ((allItems S []).map Prod.snd) := by
  refine ⟨rfl, fun i => rfl, ?_, List.mergeSort_perm _ _⟩
  exact mergeSort_desc_sorted (fun x => scoresGetD (hybridScores S [] alpha) x.id) _

theorem posFrom_get : ∀ (K : List ScoredItem), (K.map ScoredItem.id).Nodup →
    ∀ (n i : ℕ) (h : i < K.length), posFrom (K.get ⟨i, h⟩).id n K = some (n + i) := by
  intro K
  induction K with
  | nil => intro _ n i h; exact absurd h (Nat.not_lt_zero i)
  | cons item rest ih =>
    intro hnd n i h
    rw [List.map_cons, List.nodup_cons] at hnd
    obtain ⟨hni, hrest⟩ := hnd
    cases i with
    | zero => simp [posFrom, List.get]
    | succ r =>
      have hlt : r < rest.length := Nat.lt_of_succ_lt_succ h
      have hget : (item :: rest).get ⟨r + 1, h⟩ = rest.get ⟨r, hlt⟩ := rfl
      rw [hget]
      have hne : ¬ item.id = (rest.get ⟨r, hlt⟩).id := by
        intro he
        exact hni (he ▸ List.mem_map_of_mem ScoredItem.id (rest.get_mem _ _))
      simp only [posFrom, if_neg hne]
      rw [ih hrest (n + 1) r hlt]
      congr 1
      omega

/-- C7 counterexample: with two keyword results and `alpha = 0`, the item at
the earlier position receives a strictly smaller keyword contribution (1/2)
than the item at the later position (1): the contribution grows with rank
rather than decaying, refuting the claim at this concrete input. -/
theorem kw_contribution_not_decaying :
    ¬ (kwContribution [itemA2, itemC] 0 "a" ≥ kwContribution [itemA2, itemC] 0 "c") := by
  norm_num [kwContribution, pos1, posFrom, itemA2, itemC]
  rw [if_neg (show ¬ ("a" : String) = "c" from by decide)]
  norm_num

/-- C7 amended: the keyword contribution of `hybrid_merge` grows linearly
with rank instead of decaying: for any keyword result list (identifiers
distinct), any two positions `i < j`, and any `alpha < 1`, the item at the
earlier position receives a strictly smaller keyword contribution than the
item at the later position. -/
theorem kw_rank_contribution_monotone (K : List ScoredItem) (alpha : ℚ)
    (hK : (K.map ScoredItem.id).Nodup) (i j : ℕ) (hij : i < j) (hj : j < K.length)
    (ha : alpha < 1) :
    kwContribution K alpha (K.get ⟨i, lt_trans hij hj⟩).id <
      kwContribution K alpha (K.get ⟨j, hj⟩).id := by
  unfold kwContribution pos1
  rw [posFrom_get K hK 1 i (lt_trans hij hj), posFrom_get K hK 1 j hj]
  simp only
  have hlen : (0 : ℚ) < (K.length : ℚ) := by
    have hpos : 0 < K.length := lt_of_le_of_lt (Nat.zero_le j) hj
    exact_mod_cast hpos
  have halpha : (0 : ℚ) < 1 - alpha := by linarith
  have hfrac : (((1 + i : ℕ)) : ℚ) / (K.length : ℚ) < (((1 + j : ℕ)) : ℚ) / (K.length : ℚ) := by
    refine div_lt_div_of_pos_right ?_ hlen
    exact_mod_cast Nat.add_lt_add_left hij 1
  exact mul_lt_mul_of_pos_left hfrac halpha

theorem kw_rank_contribution_monotone_witness :
    kwContribution [itemA2, itemC] 0 (([itemA2, itemC].get ⟨0, by norm_num⟩).id) <
      kwContribution [itemA2, itemC] 0 (([itemA2, itemC].get ⟨1, by norm_num⟩).id) :=
  kw_rank_contribution_monotone [itemA2, itemC] 0 (by decide) 0 1
    (by norm_num) (by norm_num) (by norm_num)

/-- C9: collection naming is deterministic (equal inputs give equal names),
the name is exactly the fixed prefix, an underscore, and the user id, and
the mapping is injective: distinct user ids yield distinct names. -/
theorem get_collection_name_spec :
    (∀ u : String, get_collection_name u = get_collection_name u)
    ∧ (∀ u : String, get_collection_name u = BASE_COLLECTION_NAME ++ "_" ++ u)
    ∧ ∀ u v : String, u ≠ v → get_collection_name u ≠ get_collection_name v := by
  refine ⟨fun u => rfl, fun u => rfl, fun u v huv hne => huv ?_⟩
  have h := congrArg String.data hne
  simp only [get_collection_name, String.data_append, List.append_assoc] at h
  exact String.ext (List.append_cancel_left (List.append_cancel_left h))

theorem get_collection_name_spec_witness :
    get_collection_name "u1" ≠ get_collection_name "u2" :=
  get_collection_name_spec.2.2 "u1" "u2" (by decide)

theorem dictGet_mem {β : Type} {d : List (String × β)} {k : String} {v : β}
    (h : dictGet d k = some v) : (k, v) ∈ d := by
  induction d with
  | nil => cases h
  | cons p rest ih =>
    by_cases hp : p.1 = k
    · simp only [dictGet, if_pos hp] at h
      have hv : v = p.2 := (Option.some.injEq _ _).mp h.symm
      rw [hv, ← hp]
      exact List.mem_cons_self _ _
    · simp only [dictGet, if_neg hp] at h
      exact List.mem_cons_of_mem _ (ih h)

theorem mem_dictGet {β : Type} {d : List (String × β)} {k : String} {v : β}
    (hnd : (dictKeys d).Nodup) (h : (k, v) ∈ d) : dictGet d k = some v := by
  induction d with
  | nil => cases h
  | cons p rest ih =>
    simp only [dictKeys, List.map_cons, List.nodup_cons] at hnd
    rcases List.mem_cons.mp h with rfl | hmem
    · simp [dictGet]
    · have hk : k ∈ List.map Prod.fst rest := by
        exact List.mem_map.mpr ⟨(k, v), hmem, rfl⟩
      have hp : ¬ p.1 = k := fun he => hnd.1 (he ▸ hk)
      simp only [dictGet, if_neg hp]
      exact ih hnd.2 hmem

/-- C10: when an identifier occurs in both result lists (each list mentioning
it at most once), the record returned for it by the fusion is the
keyword-path record: in the id-keyed union dict the keyword entry, inserted
second, replaces the similarity entry, and only the accumulated score mixes
the two paths. -/
theorem fused_record_from_keyword_path (S K : List ScoredItem) (alpha : ℚ)
    (hS : (S.map ScoredItem.id).Nodup) (hK : (K.map ScoredItem.id).Nodup)
    (i : String) (hiS : i ∈ S.map ScoredItem.id) (hiK : i ∈ K.map ScoredItem.id) :
    (hybrid_merge S K alpha).find? (fun item => decide (item.id = i)) =
      K.find? (fun item => decide (item.id = i)) := by
  have huniqK : ∀ x ∈ K, ∀ y ∈ K, (fun item => decide (item.id = i)) x = true →
      (fun item => decide (item.id = i)) y = true → x = y := by
    intro x hx y hy hpx hpy
    simp only [decide_eq_true_eq] at hpx hpy
    exact List.inj_on_of_nodup_map hK hx hy (hpx.trans hpy.symm)
  obtain ⟨it0, hit0, hid0⟩ := List.mem_map.mp hiK
  cases hy : K.find? (fun item => decide (item.id = i)) with
  | none =>
    exact absurd (List.find?_eq_none.mp hy it0 hit0) (by simpa using hid0)
  | some y =>
    have hymem : y ∈ K := List.mem_of_find?_eq_some hy
    have hyid : y.id = i := by simpa using List.find?_some hy
    have hdict : dictGet (allItems S K) i = some y := by
      unfold allItems
      rw [insLoop_get_rev]
      rw [List.reverse_append, List.find?_append]
      rw [find?_reverse_of_unique huniqK, hy]
      rfl
    have hnd : (dictKeys (allItems S K)).Nodup :=
      nodup_dictKeys_insLoop _ _ [] (by simp [dictKeys])
    have hyl : y ∈ (allItems S K).map Prod.snd :=
      List.mem_map.mpr ⟨(i, y), dictGet_mem hdict, rfl⟩
    have hinv : ∀ p ∈ allItems S K, (p.2).id = p.1 :=
      insLoop_id_inv _ [] (by simp)
    rw [show hybrid_merge S K alpha =
        ((allItems S K).map Prod.snd).mergeSort
          (fun a b =>
            decide (scoresGetD (hybridScores S K alpha) b.id ≤
              scoresGetD (hybridScores S K alpha) a.id)) from rfl]
    refine find?_eq_of_unique (List.mem_mergeSort.mpr hyl) (by simpa using hyid) ?_
    intro x hx hpx
    simp only [decide_eq_true_eq] at hpx
    obtain ⟨q, hq, hq2⟩ := List.mem_map.mp (List.mem_mergeSort.mp hx)
    have hq1 : q.1 = i := by
      rw [← hinv q hq, hq2, hpx]
    have hqget : dictGet (allItems S K) i = some x := by
      rw [← hq1]
      exact mem_dictGet hnd (by rwa [show (q.1, x) = q from by rw [← hq2]])
    have := hdict.symm.trans hqget
    exact (Option.some.injEq _ _).mp this |>.symm

/-- C5 (evaluation of the defect): the module never imports `json`, so the
decode step raises `NameError` on every call and `parse` returns the
error-tagged draft carrying the diagnostic message and the raw text verbatim
for every input — also for a response that does contain a valid JSON object
between its first opening and last closing brace, where the claim says the
decoded object is returned.  The recovery half of the claim does hold: the
draft carries a diagnostic error field and the raw text, and nothing escapes
the `except Exception` handler. -/
theorem robust_parse_never_succeeds :
    (∀ text : List Char,
      RobustJsonParser.parse text = ParseResult.errDraft nameErrorMsg text)
    ∧ RobustJsonParser.parse ['a', 'b', '{', '}', 'c', 'd'] =
        ParseResult.errDraft nameErrorMsg ['a', 'b', '{', '}', 'c', 'd'] :=
  ⟨fun _ => rfl, rfl⟩

/-- Embedding oracle used to evaluate the write path: always succeeds with
status 200 and the three-component embedding vector `[7, 8, 9]`. -/
def api0 : EmbedInput → EmbedResponse := fun _ => ⟨200, "", [7, 8, 9]⟩

/-- Embedding oracle that is always unavailable: status 500, body `boom`. -/
def api500 : EmbedInput → EmbedResponse := fun _ => ⟨500, "boom", []⟩

/-- A concrete reflection result. -/
def refl0 : Reflection := ⟨["t"], "sum", "w", "av"⟩

/-- The empty store. -/
def store0 : Store := ⟨[], fun _ => []⟩

/-- C4 (evaluation of the defect): running the write with an embedding
endpoint that returns the vector `[7, 8, 9]` upserts one point whose
`vector` field is the single scalar `7` — the first component of the one
embedding returned for the stringified one-element list — and not the
fixed-dimension vector `[7, 8, 9]` of the summary that the claim
describes. -/
theorem add_episodic_memory_stores_scalar :
    (match add_episodic_memory api0 "pt1" refl0 "conv" "u1" store0 with
      | Except.ok st => (st.points (get_collection_name "u1")).map Point.vector
      | Except.error _ => []) = [PyVec.scalar 7]
    ∧ PyVec.scalar 7 ≠ PyVec.vec [7, 8, 9] := by
  constructor
  · rfl
  · decide

/-- C6: if the embedding endpoint answers a non-200 status during a write,
`add_episodic_memory` raises an error whose message carries the raw response
body, and no point is upserted anywhere: the points of every collection are
exactly those of the store before the call (the lazily ensured collection
may newly exist, but it holds no point, and no point without a vector is
ever written). -/
theorem embed_failure_write_fails_no_upsert (api : EmbedInput → EmbedResponse)
    (newId : String) (reflection : Reflection) (conversation user_id : String)
    (store : Store)
    (h : (api (EmbedInput.strList [reflection.conversation_summary])).status ≠ 200) :
    ∃ st : Store,
      add_episodic_memory api newId reflection conversation user_id store =
        Except.error
          ("Ollama API 请求失败: " ++
            (api (EmbedInput.strList [reflection.conversation_summary])).text, st)
      ∧ st.points = store.points := by
  have hembed : embed_text api (EmbedInput.strList [reflection.conversation_summary]) =
      Except.error ("Ollama API 请求失败: " ++
        (api (EmbedInput.strList [reflection.conversation_summary])).text) := by
    unfold embed_text
    rw [if_pos h]
  refine ⟨if get_collection_name user_id ∈ store.collections then store
      else { store with collections := get_collection_name user_id :: store.collections },
    ?_, ?_⟩
  · simp only [add_episodic_memory]
    rw [hembed]
  · by_cases hc : get_collection_name user_id ∈ store.collections
    · rw [if_pos hc]
    · rw [if_neg hc]

theorem embed_failure_write_fails_no_upsert_witness :
    ∃ st : Store,
      add_episodic_memory api500 "pt1" refl0 "conv" "u1" store0 =
        Except.error
          ("Ollama API 请求失败: " ++
            (api500 (EmbedInput.strList [refl0.conversation_summary])).text, st)
      ∧ st.points = store0.points :=
  embed_failure_write_fails_no_upsert api500 "pt1" refl0 "conv" "u1" store0 (by decide)

theorem fused_record_from_keyword_path_witness :
    (hybrid_merge [itemA, itemB] [itemA2, itemC] (1/2)).find?
        (fun item => decide (item.id = "a")) =
      [itemA2, itemC].find? (fun item => decide (item.id = "a")) :=
  fused_record_from_keyword_path [itemA, itemB] [itemA2, itemC] (1/2)
    (by decide) (by decide) "a" (by decide) (by decide)
